import Mathlib

/-!
Verification development for the object-valued autocomplete core of the
`rhf-mui-kit` component toolkit.

The development shallowly embeds the logic of
`src/components/ObjectElementDisplay.tsx` (option reconciliation store,
selection commit pipeline, free-solo item factory, composite value renderer),
`src/components/AutocompleteElementDisplay.tsx` together with
`getTextElementDisplayProps` (view-mode prop adapter), and
`src/hooks/useFormError.ts` (validation-error lookup), and proves the design
document's claims about them.

Items are modelled by an opaque type `σ` (the caller's `TValue`); the
caller-supplied identity function `getItemKey` is an arbitrary `key : σ →
String`.  JavaScript values that can sit in the bound form field or in the
widget's change payload are modelled by small inductive types distinguishing
`null`, raw strings, items, sentinel "add" options and arrays, mirroring the
`typeof`/`Array.isArray`/`'__isAddOption' in` probes of the source.
-/

namespace RhfMuiKit

/-- An element of an array stored in the bound form field: either a raw
string or an item (object). Sentinel create-options are never persisted. -/
inductive Elt (σ : Type) where
  | str (s : String)
  | obj (o : σ)
  deriving DecidableEq, Repr

/-- An element of an array change payload coming from the widget: a raw
string, an item, or a sentinel add-option (`{__isAddOption: true, inputValue,
...stringToNewItem(inputValue)}`). -/
inductive AcElem (σ : Type) where
  | str (s : String)
  | obj (o : σ)
  | add (inputValue : String) (payload : σ)
  deriving DecidableEq, Repr

/-- A change payload handed to the `onChange` handler by the widget. -/
inductive AcVal (σ : Type) where
  | vnull
  | vstr (s : String)
  | vobj (o : σ)
  | vadd (inputValue : String) (payload : σ)
  | varr (xs : List (AcElem σ))
  deriving DecidableEq, Repr

/-- A bound form-field value: `null`/absent, a raw string, a single item, or
an array of elements. -/
inductive FVal (σ : Type) where
  | fnull
  | fstr (s : String)
  | fobj (o : σ)
  | farr (xs : List (Elt σ))
  deriving DecidableEq, Repr

namespace FVal

/-- JavaScript truthiness of a field value (`!field.value` guard): `null` and
the empty string are falsy; objects and arrays (even empty) are truthy. -/
def truthy {σ : Type} : FVal σ → Bool
  | .fnull => false
  | .fstr s => !(s == "")
  | .fobj _ => true
  | .farr _ => true

/-- `Array.isArray(field.value) ? field.value : [field.value]`: normalise the
field value into a sequence of elements. -/
def toElts {σ : Type} : FVal σ → List (Elt σ)
  | .fnull => []
  | .fstr s => [.str s]
  | .fobj o => [.obj o]
  | .farr xs => xs

end FVal

/-- `[...options, ...newOptions].some(option => getItemKey(option) ===
getItemKey(value))`: key membership test used everywhere for deduplication. -/
def keyMem {σ : Type} (key : σ → String) (opts : List σ) (k : String) : Bool :=
  opts.any (fun p => key p == k)

/-- The batch of discovered options produced by one run of the value-change
reconciliation effect (`useEffect`, `ObjectElementDisplay.tsx` lines 183-188):
keep the non-string entries of the normalised field value whose key is absent
from `options ∪ newOptions`. -/
def reconBatch {σ : Type} (key : σ → String) (options newOptions : List σ)
    (fv : FVal σ) : List σ :=
  fv.toElts.filterMap fun e =>
    match e with
    | .str _ => none
    | .obj o => if keyMem key (options ++ newOptions) (key o) then none else some o

/-- One run of the value-change reconciliation effect
(`ObjectElementDisplay.tsx` lines 180-194): skip falsy field values, compute
the fresh entries, and append them to `newOptions` when there are any. -/
def reconcileStep {σ : Type} (key : σ → String) (options newOptions : List σ)
    (fv : FVal σ) : List σ :=
  if !fv.truthy then newOptions
  else
    let newFieldOptions := reconBatch key options newOptions fv
    if newFieldOptions.length > 0 then newOptions ++ newFieldOptions else newOptions

/-- The `useState` initialiser of `newOptions` (`ObjectElementDisplay.tsx`
lines 162-173): seed the discovered options from the initial field value,
keeping non-string entries absent (by key) from the configured options. -/
def initNewOptions {σ : Type} (key : σ → String) (options : List σ)
    (fv : FVal σ) : List σ :=
  if !fv.truthy then []
  else
    fv.toElts.filterMap fun e =>
      match e with
      | .str _ => none
      | .obj o => if keyMem key options (key o) then none else some o

/-- The combined option set handed to the widget (`allOptions`,
`ObjectElementDisplay.tsx` line 199): configured options followed by
discovered options. -/
def allOptions {σ : Type} (options newOptions : List σ) : List σ :=
  options ++ newOptions

/-- `getInputValue` helper of the commit pipeline (`ObjectElementDisplay.tsx`
lines 312-320): a non-empty string yields itself; a sentinel add-option
yields its `inputValue`; everything else (including `null` and arrays) yields
nothing. -/
def getInputValue {σ : Type} : AcVal σ → Option String
  | .vstr s => if s.length > 0 then some s else none
  | .vadd inputValue _ => some inputValue
  | _ => none

/-- The same probe applied to an element of an array payload (the `map` in
the array branch, lines 347-350). -/
def elemInputValue {σ : Type} : AcElem σ → Option String
  | .str s => if s.length > 0 then some s else none
  | .add inputValue _ => some inputValue
  | .obj _ => none

/-- Lift a persisted array element into a payload element. -/
def Elt.toAc {σ : Type} : Elt σ → AcElem σ
  | .str s => .str s
  | .obj o => .obj o

/-- Configuration of one `ObjectElementDisplay` instance, as far as the
commit pipeline is concerned. -/
structure Cfg (σ : Type) where
  key : σ → String
  freeSolo : Bool
  stringToNewItem : Option (String → σ)
  multiple : Bool
  transformValue : Option (AcVal σ → AcVal σ)
  options : List σ

/-- Observable outcome of one run of the `onChange` commit pipeline
(`ObjectElementDisplay.tsx` lines 285-373). `writes` records the
`field.onChange` calls made by the handler, in order; `resolved` records the
value handed to `applyTransform` (none when the handler fell through);
`transformCount` counts `transformValue` invocations; `newOptionsAfter` is
the discovered-options state after the handler's `setNewOptions` effects;
`delegated` records the fall-through call to `autocompleteProps?.onChange`. -/
structure CommitOut (σ : Type) where
  writes : List (AcVal σ)
  resolved : Option (AcVal σ)
  transformCount : Nat
  newOptionsAfter : List σ
  delegated : Bool
  deriving Repr

/-- `val !== null`: structural non-null test on a change payload. -/
def AcVal.nonNull {σ : Type} : AcVal σ → Bool
  | .vnull => false
  | _ => true

/-- `applyTransform` helper (lines 289-293): apply `transformValue` when it
exists and the value is not `null`, and call `field.onChange` with the
result. Returns the single write together with the transform-call count. -/
def applyTransform {σ : Type} (transformValue : Option (AcVal σ → AcVal σ))
    (val : AcVal σ) : AcVal σ × Nat :=
  match transformValue with
  | some t => if val.nonNull then (t val, 1) else (val, 0)
  | none => (val, 0)

/-- `addToNewOptions` helper (lines 298-307): append the item to the
discovered options unless its key already occurs in `options ∪ newOptions`. -/
def addToNewOptions {σ : Type} (key : σ → String) (options newOptions : List σ)
    (item : σ) : List σ :=
  if keyMem key (options ++ newOptions) (key item) then newOptions
  else newOptions ++ [item]

/-- The `onChange` commit pipeline of `ObjectElementDisplay.tsx`
(lines 285-373), as a function of the configuration, the current
discovered-options state, the current bound field value, and the widget's
change payload. -/
def commitOnChange {σ : Type} (c : Cfg σ) (newOptions : List σ)
    (fieldValue : FVal σ) (value : AcVal σ) : CommitOut σ :=
  match c.freeSolo, c.stringToNewItem with
  | true, some f =>
    match getInputValue value with
    | some inputValue =>
      -- string / sentinel add-option branch (lines 327-342)
      let newItem := f inputValue
      let resolved : AcVal σ :=
        if c.multiple then
          let currentValues : List (Elt σ) :=
            match fieldValue with
            | .farr xs => xs
            | _ => []
          .varr (currentValues.map Elt.toAc ++ [.obj newItem])
        else .vobj newItem
      let wn := applyTransform c.transformValue resolved
      { writes := [wn.1], resolved := some resolved, transformCount := wn.2,
        newOptionsAfter := addToNewOptions c.key c.options newOptions newItem,
        delegated := false }
    | none =>
      match value with
      | .varr xs =>
        if c.multiple then
          -- array branch (lines 345-363)
          let newValues : List (AcElem σ) := xs.map fun item =>
            match elemInputValue item with
            | some inputVal => .obj (f inputVal)
            | none => item
          let resolved : AcVal σ := .varr newValues
          let wn := applyTransform c.transformValue resolved
          let allOptionsKeys := (c.options ++ newOptions).map c.key
          let newItems : List σ := newValues.filterMap fun item =>
            match item with
            | .str _ => none
            | .obj o => if allOptionsKeys.contains (c.key o) then none else some o
            | .add _ p => if allOptionsKeys.contains (c.key p) then none else some p
          { writes := [wn.1], resolved := some resolved, transformCount := wn.2,
            newOptionsAfter :=
              if newItems.length > 0 then newOptions ++ newItems else newOptions,
            delegated := false }
        else commitDefault c newOptions value
      | _ => commitDefault c newOptions value
  | _, _ => commitDefault c newOptions value
where
  /-- Default behaviour for non-freeSolo cases (lines 367-372): apply the
  transform when present and the value is not `null`, otherwise fall through
  to the caller-supplied `onChange`. -/
  commitDefault (c : Cfg σ) (newOptions : List σ) (value : AcVal σ) : CommitOut σ :=
    if c.transformValue.isSome && value.nonNull then
      let wn := applyTransform c.transformValue value
      { writes := [wn.1], resolved := some value, transformCount := wn.2,
        newOptionsAfter := newOptions, delegated := false }
    else
      { writes := [], resolved := none, transformCount := 0,
        newOptionsAfter := newOptions, delegated := true }

/-- Modelled from the spec: the editable-widget collaborator wrapped by this
component (the `AutocompleteElement` of the bound-form widget library, whose
source is not part of this repository) first commits the raw change value
through the bound-form field channel and then invokes the supplied
`onChange`; §4.3 requires `clear`/`removeOption` to "pass the (possibly
empty/null) new value straight through". Hence the field's final value after
a change is the pipeline's last write when it made one, and the raw change
value passed straight through otherwise. -/
def finalCommitted {σ : Type} (c : Cfg σ) (newOptions : List σ)
    (fieldValue : FVal σ) (value : AcVal σ) : AcVal σ :=
  match (commitOnChange c newOptions fieldValue value).writes.getLast? with
  | some w => w
  | none => value

/-- A value handed by the widget to `renderValue`: the current selection. -/
inductive RVal (σ : Type) where
  | rnull
  | rstr (s : String)
  | robj (o : σ)
  | rarr (xs : List (Elt σ))
  deriving DecidableEq, Repr

/-- A visual token's label: the element's own string form, or the node
produced by `getItemLabel`. -/
inductive RToken (L : Type) where
  | str (s : String)
  | lbl (l : L)
  deriving DecidableEq, Repr

/-- The output of `renderValue`: a chip token per element in multi-select, a
plain text (raw string or the empty single-select case), or a label node. -/
inductive Rendered (L : Type) where
  | chips (ts : List (RToken L))
  | text (s : String)
  | node (l : L)
  deriving DecidableEq, Repr

/-- `getAutocompleteTypedValue` (utils): every branch returns its argument
unchanged (the branches only change the static type ascription). -/
def getAutocompleteTypedValue {σ : Type} (value : RVal σ) : RVal σ :=
  value

/-- The `renderValue` callback of `ObjectElementDisplay.tsx` (lines 381-412):
arrays yield one chip per element in order (raw strings label themselves,
items are labelled by `getItemLabel`); a string value is returned as-is; a
non-null single value yields `getItemLabel(value)`; `null`/absent yields the
empty string. -/
def renderValue {σ L : Type} (label : σ → L) (value : RVal σ) : Rendered L :=
  let typedValue := getAutocompleteTypedValue value
  match typedValue with
  | .rarr xs =>
    .chips (xs.map fun v =>
      match v with
      | .str s => .str s
      | .obj o => .lbl (label o))
  | .rstr s => .text s
  | .robj o => .node (label o)
  | .rnull => .text ""

/-- The text-field visual variant. -/
inductive Variant where
  | standard
  | outlined
  | filled
  deriving DecidableEq, Repr

/-- lodash `merge` on one scalar field: a defined (non-`undefined`) value of
the later source overwrites, an `undefined` one is skipped. -/
def mergeOpt {α : Type} (dst src : Option α) : Option α :=
  match src with
  | some v => some v
  | none => dst

/-- lodash deep `merge` on a style-override object, abstracted to the set of
selector keys it defines: keys of the later source are added. -/
def sxUnion (dst src : List String) : List String :=
  dst ++ src.filter (fun k => !(dst.contains k))

/-- JavaScript `a || b` on optional booleans (`undefined` and `false` are
falsy). -/
def jsOr (a b : Option Bool) : Option Bool :=
  match a with
  | some true => some true
  | _ => b

/-- The caller-visible text-field props touched by the view-mode adapter. -/
structure TextFieldProps where
  disabled : Option Bool
  variant : Option Variant
  sxKeys : List String
  deriving DecidableEq, Repr

/-- Style-override selector for hiding the dropdown's end adornment. -/
def endAdornmentHiddenKey : String := "MuiAutocomplete-endAdornment-display-none"

/-- Style-override selectors for hiding the underline without using the
widget's own underline-hiding feature. -/
def underlineOverrideKeys : List String :=
  ["MuiInput-underline-before-none", "MuiInput-underline-after-none",
   "MuiInput-underline-hover-before-none"]

/-- `getTextElementDisplayProps` (utils): `merge(props, viewOnly ? {disabled:
true, variant: "standard", sx: {...}} : {})` — the forced view-only settings
are merged over the caller's props. -/
def getTextElementDisplayProps (props : TextFieldProps)
    (viewOnly : Bool := false) (disableUnderline : Bool := false) : TextFieldProps :=
  if viewOnly then
    { disabled := mergeOpt props.disabled (some true),
      variant := mergeOpt props.variant (some .standard),
      sxKeys := sxUnion props.sxKeys
        (endAdornmentHiddenKey :: (if disableUnderline then underlineOverrideKeys else [])) }
  else props

/-- The caller-visible autocomplete props touched by the view-mode adapter of
`AutocompleteElementDisplay.tsx`. -/
structure AcpAdapterProps where
  readOnly : Option Bool
  disableClearable : Option Bool
  disabled : Option Bool
  sxKeys : List String
  deriving DecidableEq, Repr

/-- Style-override selector forcing chip opacity in view-only mode. -/
def tagOpacityKey : String := "MuiAutocomplete-tag-opacity-1"

/-- `autocompleteAdjustedProps` of `AutocompleteElementDisplay.tsx`
(lines 62-87): `merge({readOnly: viewOnly, disableClearable:
acp?.disableClearable || viewOnly, disabled: viewOnly}, acp, viewOnly ?
{sx:{".MuiAutocomplete-tag": ...}} : {})`. -/
def autocompleteAdjustedProps (acp : AcpAdapterProps)
    (viewOnly : Option Bool) : AcpAdapterProps :=
  let layer1 : AcpAdapterProps :=
    { readOnly := viewOnly,
      disableClearable := jsOr acp.disableClearable viewOnly,
      disabled := viewOnly,
      sxKeys := [] }
  let layer2 : AcpAdapterProps :=
    { readOnly := mergeOpt layer1.readOnly acp.readOnly,
      disableClearable := mergeOpt layer1.disableClearable acp.disableClearable,
      disabled := mergeOpt layer1.disabled acp.disabled,
      sxKeys := sxUnion layer1.sxKeys acp.sxKeys }
  match viewOnly with
  | some true => { layer2 with sxKeys := sxUnion layer2.sxKeys [tagOpacityKey] }
  | _ => layer2

/-- A node of a bound-form errors object: an optional `message` together with
named nested children. -/
inductive ErrVal where
  | node (message : Option String) (children : List (String × ErrVal))

/-- Direct bracket lookup `errors[name]` among the top-level keys. -/
def assocFind : List (String × ErrVal) → String → Option ErrVal
  | [], _ => none
  | (k, v) :: rest, n => if k == n then some v else assocFind rest n

/-- The `message` field of an error object. -/
def errMessage : ErrVal → Option String
  | .node m _ => m

/-- The children of an error object. -/
def errChildren : ErrVal → List (String × ErrVal)
  | .node _ ch => ch

/-- `useFormError` (`src/hooks/useFormError.ts` lines 9-21): `const
fieldError = errors[name]` — a direct, flat bracket lookup of the full name
string — then `{error: !!fieldError, helperText: fieldError?.message || ''}`. -/
def useFormError (errors : List (String × ErrVal)) (name : String) :
    Bool × String :=
  let fieldError := assocFind errors name
  (fieldError.isSome,
   match fieldError with
   | some e => (errMessage e).getD ""
   | none => "")

/-- lodash `get` walk along a dot-separated path. -/
def deepGet (errors : List (String × ErrVal)) : List String → Option ErrVal
  | [] => none
  | [k] => assocFind errors k
  | k :: rest =>
    match assocFind errors k with
    | some e => deepGet (errChildren e) rest
    | none => none

/-- Split a character list at the dots (the path segmentation lodash `get`
performs on a `"a.b.c"`-style key). -/
def splitDotAux : List Char → List Char → List String
  | [], acc => [⟨acc.reverse⟩]
  | ch :: rest, acc =>
    if ch = '.' then ⟨acc.reverse⟩ :: splitDotAux rest []
    else splitDotAux rest (ch :: acc)

/-- Split a dot-separated path name into its segments. -/
def splitDots (s : String) : List String :=
  splitDotAux s.data []

/-- The lodash-`get` variant of `useFormError` found in the repository: `const
fieldError = get(errors, name)` resolves dot-separated nested paths. -/
def useFormErrorLodashGet (errors : List (String × ErrVal)) (name : String) :
    Bool × String :=
  let fieldError := deepGet errors (splitDots name)
  (fieldError.isSome,
   match fieldError with
   | some e => (errMessage e).getD ""
   | none => "")

/-- `freeSoloItem` of `ObjectDisplayElement` (the second implementation in
the repository, lines 181-188): `undefined` unless free-solo is on, a
converter exists, the input is non-empty, and no option or discovered option
already carries the item's key. -/
def freeSoloItem {σ : Type} (key : σ → String) (freeSolo : Bool)
    (stringToNewItem : Option (String → σ)) (freeSoloValue : String)
    (options newOptions : List σ) : Option σ :=
  if !freeSolo then none
  else
    match stringToNewItem with
    | none => none
    | some f =>
      if freeSoloValue.length = 0 then none
      else
        let item := f freeSoloValue
        let itemKey := key item
        if keyMem key options itemKey then none
        else if keyMem key newOptions itemKey then none
        else some item

/-- The `onChange` handler of `ObjectDisplayElement` (second implementation,
lines 261-271): when free-solo is on and a `freeSoloItem` exists, a missing
`stringToNewItem` throws; otherwise the item is registered and the input
cleared; in every case the handler then delegates to the caller's `onChange`.
Returns the resulting `(newOptions, freeSoloValue)` state or the thrown
message. -/
def part3OnChange {σ : Type} (key : σ → String) (freeSolo : Bool)
    (stringToNewItem : Option (String → σ)) (freeSoloValue : String)
    (options newOptions : List σ) : Except String (List σ × String) :=
  match freeSolo, freeSoloItem key freeSolo stringToNewItem freeSoloValue options newOptions with
  | true, some item =>
    match stringToNewItem with
    | none => .error "Must implement stringToNewItem with freeSolo"
    | some _ => .ok (newOptions ++ [item], "")
  | _, _ => .ok (newOptions, freeSoloValue)

/-- The internal `filterOptions` of `ObjectElementDisplay.tsx`
(lines 220-251): match options by key or stringified label
(case-insensitive); in free-solo mode with a converter, prepend one sentinel
add-option when no exact label match exists. -/
def internalFilterOptions {σ : Type} (c : Cfg σ) (label : σ → String)
    (options : List σ) (inputValue : String) : List (AcElem σ) :=
  if inputValue = "" then options.map .obj
  else
    let searchValue := inputValue.toLower
    let filteredOptions := options.filter fun o =>
      (c.key o).toLower.containsSubstr searchValue
        || (label o).toLower.containsSubstr searchValue
    match c.freeSolo, c.stringToNewItem with
    | true, some f =>
      let hasExactMatch := filteredOptions.any fun o => (label o).toLower == searchValue
      if !hasExactMatch && inputValue.length > 0 then
        .add inputValue (f inputValue) :: filteredOptions.map .obj
      else filteredOptions.map .obj
    | _, _ => filteredOptions.map .obj

/-- The widget configuration assembled by `ObjectElementDisplay.tsx`
(lines 208-414), restricted to the caller-overridable callbacks named by the
claims. -/
structure WidgetCfg (σ : Type) where
  isOptionEqualToValue : σ → σ → Bool
  filterOptions : List σ → String → List (AcElem σ)
  onChange : AcVal σ → CommitOut σ
  renderValueF : RVal σ → Rendered String
  freeSolo : Bool

/-- The caller-supplied `autocompleteProps` entries for the same callbacks
(`none` = entry absent). -/
structure CallerAcp (σ : Type) where
  isOptionEqualToValue : Option (σ → σ → Bool)
  filterOptions : Option (List σ → String → List (AcElem σ))
  onChange : Option (AcVal σ → CommitOut σ)
  renderValueF : Option (RVal σ → Rendered String)
  freeSoloOverride : Option Bool

/-- The `autocompleteProps` object built by `ObjectElementDisplay.tsx`: the
internal entries are listed first and `...autocompleteProps` is spread last
(line 413), so every entry the caller provides wholly replaces the internal
one. -/
def buildWidgetCfg {σ : Type} (c : Cfg σ) (label : σ → String)
    (newOptions : List σ) (fieldValue : FVal σ) (acp : CallerAcp σ) :
    WidgetCfg σ :=
  { isOptionEqualToValue :=
      acp.isOptionEqualToValue.getD (fun o v => c.key o == c.key v),
    filterOptions := acp.filterOptions.getD (internalFilterOptions c label),
    onChange := acp.onChange.getD (commitOnChange c newOptions fieldValue),
    renderValueF := acp.renderValueF.getD (renderValue label),
    freeSolo := acp.freeSoloOverride.getD c.freeSolo }

/-- The batch of items a single `onChange` run appends to the discovered
options: the single resolved item when its key is fresh, or the fresh new
items of an array commit. -/
def commitBatch {σ : Type} (c : Cfg σ) (newOptions : List σ)
    (value : AcVal σ) : List σ :=
  match c.freeSolo, c.stringToNewItem with
  | true, some f =>
    match getInputValue value with
    | some inputValue =>
      let newItem := f inputValue
      if keyMem c.key (c.options ++ newOptions) (c.key newItem) then []
      else [newItem]
    | none =>
      match value with
      | .varr xs =>
        if c.multiple then
          let newValues : List (AcElem σ) := xs.map fun item =>
            match elemInputValue item with
            | some inputVal => .obj (f inputVal)
            | none => item
          let allOptionsKeys := (c.options ++ newOptions).map c.key
          newValues.filterMap fun item =>
            match item with
            | .str _ => none
            | .obj o => if allOptionsKeys.contains (c.key o) then none else some o
            | .add _ p => if allOptionsKeys.contains (c.key p) then none else some p
        else []
      | _ => []
  | _, _ => []

/-- The item entries of a normalised bound value (its non-string elements,
in order). -/
def objsOf {σ : Type} (fv : FVal σ) : List σ :=
  fv.toElts.filterMap fun e =>
    match e with
    | .obj o => some o
    | .str _ => none

/-- `Array.isArray(field.value) ? field.value : []` (line 332): the current
bound sequence in multi-select mode. -/
def currentArr {σ : Type} : FVal σ → List (Elt σ)
  | .farr xs => xs
  | _ => []

/-- The resolved value a commit hands to the transform step (§4.3): free-solo
text or a sentinel resolves through the converter (appended to the bound
sequence in multi-select, replacing it in single-select); an array payload in
multi-select resolves element-wise; everything else passes through. -/
def resolveValue {σ : Type} (c : Cfg σ) (fieldValue : FVal σ)
    (value : AcVal σ) : AcVal σ :=
  match c.freeSolo, c.stringToNewItem with
  | true, some f =>
    match getInputValue value with
    | some inputValue =>
      if c.multiple then
        .varr ((currentArr fieldValue).map Elt.toAc ++ [.obj (f inputValue)])
      else .vobj (f inputValue)
    | none =>
      match value with
      | .varr xs =>
        if c.multiple then
          .varr (xs.map fun item =>
            match elemInputValue item with
            | some inputVal => .obj (f inputVal)
            | none => item)
        else value
      | _ => value
  | _, _ => value

/-- Element-wise resolution of an array payload as the claims state it: raw
strings and sentinels go through `stringToNewItem`, existing items pass
through unchanged. -/
def claimResolveElem {σ : Type} (f : String → σ) : AcElem σ → AcElem σ
  | .str s => .obj (f s)
  | .add inputValue _ => .obj (f inputValue)
  | .obj o => .obj o

/-- The concrete instance used to exhibit the duplicate-key violation:
string items keyed by themselves, multi-select free-solo with the identity
converter and no configured options. -/
def cDup : Cfg String :=
  { key := fun s => s, freeSolo := true, stringToNewItem := some (fun s => s),
    multiple := true, transformValue := none, options := [] }

/-- The concrete instance used to witness the amended no-duplicate-keys
invariant. -/
def cW : Cfg String :=
  { key := fun s => s, freeSolo := true,
    stringToNewItem := some (fun s => String.append "new-" s),
    multiple := true, transformValue := none, options := ["x"] }

/-- The concrete misconfigured instance: free-solo enabled with no
`stringToNewItem` converter. -/
def cNoConv : Cfg String :=
  { key := fun s => s, freeSolo := true, stringToNewItem := none,
    multiple := false, transformValue := none, options := [] }

/-- The concrete instance used to witness the transform-step behaviour: a
constant `transformValue` and no free-solo machinery. -/
def cT : Cfg String :=
  { key := fun s => s, freeSolo := false, stringToNewItem := none,
    multiple := false, transformValue := some (fun _ => AcVal.vstr "T"),
    options := [] }

/-- A nested errors object: `{user: {email: {message: "Invalid email
format"}}}`, as produced by the bound-form collaborator for field
"user.email". -/
def nestedErrs : List (String × ErrVal) :=
  [("user", .node none [("email", .node (some "Invalid email format") [])])]

/-- The discovered-options states reachable by any sequence of
reconciliations and commits from an initial seeding. -/
inductive Reach {σ : Type} (c : Cfg σ) : List σ → Prop where
  | init (fv : FVal σ) : Reach c (initNewOptions c.key c.options fv)
  | reconcile {no : List σ} (fv : FVal σ) : Reach c no →
      Reach c (reconcileStep c.key c.options no fv)
  | commit {no : List σ} (fv : FVal σ) (v : AcVal σ) : Reach c no →
      Reach c ((commitOnChange c no fv v).newOptionsAfter)

/-- Reachability restricted to steps whose inserted batch carries pairwise
distinct keys (no intra-batch duplicate keys). -/
inductive ReachD {σ : Type} (c : Cfg σ) : List σ → Prop where
  | init (fv : FVal σ) :
      ((initNewOptions c.key c.options fv).map c.key).Nodup →
      ReachD c (initNewOptions c.key c.options fv)
  | reconcile {no : List σ} (fv : FVal σ) : ReachD c no →
      ((reconBatch c.key c.options no fv).map c.key).Nodup →
      ReachD c (reconcileStep c.key c.options no fv)
  | commit {no : List σ} (fv : FVal σ) (v : AcVal σ) : ReachD c no →
      ((commitBatch c no v).map c.key).Nodup →
      ReachD c ((commitOnChange c no fv v).newOptionsAfter)

theorem keyMem_iff {σ : Type} (key : σ → String) (opts : List σ) (k : String) :
    keyMem key opts k = true ↔ k ∈ opts.map key := by
  simp only [keyMem, List.any_eq_true, List.mem_map, beq_iff_eq]

theorem keyMem_false_iff {σ : Type} (key : σ → String) (opts : List σ)
    (k : String) : keyMem key opts k = false ↔ k ∉ opts.map key := by
  rw [← Bool.not_eq_true, not_iff_not]
  exact keyMem_iff key opts k

theorem fresh_of_filterMap {α σ : Type} {key : σ → String} {ks : List String}
    {f : α → Option σ} {l : List α}
    (hf : ∀ a o, f a = some o → key o ∉ ks) {o : σ}
    (h : o ∈ l.filterMap f) : key o ∉ ks := by
  obtain ⟨a, -, ha⟩ := List.mem_filterMap.mp h
  exact hf a o ha

theorem reconBatch_falsy {σ : Type} (key : σ → String) (options no : List σ)
    {fv : FVal σ} (h : fv.truthy = false) :
    reconBatch key options no fv = [] := by
  cases fv with
  | fnull => rfl
  | fstr s => rfl
  | fobj o => simp [FVal.truthy] at h
  | farr xs => simp [FVal.truthy] at h

theorem reconcileStep_eq {σ : Type} (key : σ → String) (options no : List σ)
    (fv : FVal σ) :
    reconcileStep key options no fv = no ++ reconBatch key options no fv := by
  rw [reconcileStep]
  cases h : fv.truthy with
  | false => simp [reconBatch_falsy key options no h]
  | true =>
    cases hb : reconBatch key options no fv with
    | nil => simp [hb]
    | cons a l => simp [hb]

theorem mem_reconBatch {σ : Type} {key : σ → String} {options no : List σ}
    {fv : FVal σ} {o : σ} (h : o ∈ reconBatch key options no fv) :
    key o ∉ (options ++ no).map key := by
  rw [reconBatch] at h
  refine fresh_of_filterMap (fun e p he => ?_) h
  cases e with
  | str s => exact absurd he (by simp)
  | obj q =>
    simp only at he
    split at he
    · exact absurd he (by simp)
    · rename_i hk
      rw [Bool.not_eq_true] at hk
      obtain rfl : q = p := by injection he
      exact (keyMem_false_iff key (options ++ no) (key q)).mp hk

theorem mem_initNewOptions {σ : Type} {key : σ → String} {options : List σ}
    {fv : FVal σ} {o : σ} (h : o ∈ initNewOptions key options fv) :
    key o ∉ options.map key := by
  rw [initNewOptions] at h
  split at h
  · exact absurd h (by simp)
  · refine fresh_of_filterMap (fun e p he => ?_) h
    cases e with
    | str s => exact absurd he (by simp)
    | obj q =>
      simp only at he
      split at he
      · exact absurd he (by simp)
      · rename_i hk
        rw [Bool.not_eq_true] at hk
        obtain rfl : q = p := by injection he
        exact (keyMem_false_iff key options (key q)).mp hk

theorem commitDefault_newOptionsAfter {σ : Type} (c : Cfg σ) (no : List σ)
    (v : AcVal σ) :
    (commitOnChange.commitDefault c no v).newOptionsAfter = no := by
  rw [commitOnChange.commitDefault]
  split <;> rfl

theorem append_if_pos {α : Type} (no l : List α) :
    (if l.length > 0 then no ++ l else no) = no ++ l := by
  cases l <;> simp

theorem addToNewOptions_eq {σ : Type} (key : σ → String)
    (opts no : List σ) (item : σ) :
    addToNewOptions key opts no item
      = no ++ (if keyMem key (opts ++ no) (key item) then [] else [item]) := by
  rw [addToNewOptions]
  split <;> simp

theorem commit_newOptionsAfter {σ : Type} (c : Cfg σ) (no : List σ)
    (fv : FVal σ) (v : AcVal σ) :
    (commitOnChange c no fv v).newOptionsAfter = no ++ commitBatch c no v := by
  obtain ⟨key, fs, s2i, mult, tr, opts⟩ := c
  cases fs with
  | false => simp [commitOnChange, commitBatch, commitDefault_newOptionsAfter]
  | true =>
    cases s2i with
    | none => simp [commitOnChange, commitBatch, commitDefault_newOptionsAfter]
    | some f =>
      unfold commitOnChange commitBatch
      cases hin : getInputValue v with
      | some iv => exact addToNewOptions_eq key opts no (f iv)
      | none =>
        cases v with
        | varr xs =>
          cases mult with
          | false => simp [commitDefault_newOptionsAfter]
          | true => exact append_if_pos no _
        | vnull => simp [commitDefault_newOptionsAfter]
        | vstr s => simp [commitDefault_newOptionsAfter]
        | vobj o => simp [commitDefault_newOptionsAfter]
        | vadd a b => simp [commitDefault_newOptionsAfter]

theorem mem_commitBatch {σ : Type} {c : Cfg σ} {no : List σ} {v : AcVal σ}
    {o : σ} (h : o ∈ commitBatch c no v) :
    c.key o ∉ (c.options ++ no).map c.key := by
  obtain ⟨key, fs, s2i, mult, tr, opts⟩ := c
  simp only at h ⊢
  cases fs with
  | false => exact absurd h (by simp [commitBatch])
  | true =>
    cases s2i with
    | none => exact absurd h (by simp [commitBatch])
    | some f =>
      rw [commitBatch] at h
      cases hin : getInputValue v with
      | some iv =>
        rw [hin] at h
        simp only at h
        split at h
        · exact absurd h (by simp)
        · rename_i hk
          rw [Bool.not_eq_true] at hk
          rw [List.mem_singleton] at h
          subst h
          exact (keyMem_false_iff key (opts ++ no) _).mp hk
      | none =>
        rw [hin] at h
        cases v with
        | varr xs =>
          cases mult with
          | false => exact absurd h (by simp)
          | true =>
            simp only [if_true] at h
            refine fresh_of_filterMap (fun e p he => ?_) h
            cases e with
            | str s => exact absurd he (by simp)
            | obj q =>
              simp only at he
              split at he
              · exact absurd he (by simp)
              · rename_i hc
                obtain rfl : q = p := by injection he
                intro hmem
                exact hc (by simpa using hmem)
            | add a q =>
              simp only at he
              split at he
              · exact absurd he (by simp)
              · rename_i hc
                obtain rfl : q = p := by injection he
                intro hmem
                exact hc (by simpa using hmem)
        | vnull => exact absurd h (by simp)
        | vstr s => exact absurd h (by simp)
        | vobj p => exact absurd h (by simp)
        | vadd a b => exact absurd h (by simp)

theorem nodup_append_of_fresh {σ : Type} (key : σ → String)
    (base batch : List σ) (hbase : (base.map key).Nodup)
    (hbatch : (batch.map key).Nodup)
    (hfresh : ∀ o ∈ batch, key o ∉ base.map key) :
    ((base ++ batch).map key).Nodup := by
  rw [List.map_append, List.nodup_append]
  refine ⟨hbase, hbatch, ?_⟩
  intro k hk hk2
  obtain ⟨o, ho, rfl⟩ := List.mem_map.mp hk2
  exact hfresh o ho hk

theorem keyMem_append {σ : Type} (key : σ → String) (l m : List σ)
    (k : String) :
    keyMem key (l ++ m) k = (keyMem key l k || keyMem key m k) := by
  simp [keyMem, List.any_append]

theorem keyMem_of_mem {σ : Type} {key : σ → String} {l : List σ} {o : σ}
    (h : o ∈ l) : keyMem key l (key o) = true :=
  (keyMem_iff key l (key o)).mpr (List.mem_map_of_mem key h)

theorem batch_filter_form {σ : Type} (key : σ → String) (seen : List σ)
    (l : List (Elt σ)) :
    (l.filterMap fun e =>
        match e with
        | .str _ => none
        | .obj o => if keyMem key seen (key o) then none else some o)
      = (l.filterMap fun e =>
          match e with
          | .obj o => some o
          | .str _ => none).filter (fun o => !(keyMem key seen (key o))) := by
  induction l with
  | nil => rfl
  | cons e t ih =>
    cases e with
    | str s => simpa using ih
    | obj o =>
      by_cases hk : keyMem key seen (key o) = true
      · simp [hk, ih]
      · rw [Bool.not_eq_true] at hk
        simp [hk, ih]

/-- C2: the value-change reconciliation step is idempotent — running it a
second time with the same bound value, configured options and key function
inserts nothing, because every entry's key is already present (membership is
checked by key). -/
theorem reconcile_idempotent {σ : Type} (key : σ → String)
    (options no : List σ) (fv : FVal σ) :
    reconcileStep key options (reconcileStep key options no fv) fv
      = reconcileStep key options no fv := by
  have hnil : reconBatch key options (no ++ reconBatch key options no fv) fv = [] := by
    rw [reconBatch]
    rw [List.filterMap_eq_nil_iff]
    intro e he
    cases e with
    | str s => rfl
    | obj o =>
      simp only
      by_cases hk : keyMem key (options ++ no) (key o) = true
      · have hmem : keyMem key (options ++ (no ++ reconBatch key options no fv)) (key o) = true := by
          rw [keyMem_append] at hk
          rw [keyMem_append, keyMem_append]
          rcases Bool.or_eq_true_iff.mp hk with h | h
          · simp [h]
          · simp [h]
        simp [hmem]
      · have ho : o ∈ reconBatch key options no fv := by
          rw [reconBatch, List.mem_filterMap]
          refine ⟨.obj o, he, ?_⟩
          rw [Bool.not_eq_true] at hk
          simp [hk]
        have hmem : keyMem key (options ++ (no ++ reconBatch key options no fv)) (key o) = true := by
          rw [keyMem_append, keyMem_append, keyMem_of_mem ho]
          simp
        simp [hmem]
  conv_lhs => rw [reconcileStep_eq key options no fv]
  rw [reconcileStep_eq key options (no ++ reconBatch key options no fv) fv, hnil,
    List.append_nil, reconcileStep_eq key options no fv]

theorem all_obj_eq_map {σ : Type} (l : List (Elt σ))
    (h : ∀ e ∈ l, ∃ o, e = Elt.obj o) :
    l = (l.filterMap fun e =>
      match e with
      | .obj o => some o
      | .str _ => none).map Elt.obj := by
  induction l with
  | nil => rfl
  | cons e t ih =>
    obtain ⟨o, rfl⟩ := h e (List.mem_cons_self e t)
    have ht := ih (fun x hx => h x (List.mem_cons_of_mem _ hx))
    conv_lhs => rw [ht]
    simp [List.filterMap_cons]

/-- C3: for a bound value whose entries are items, reconciliation normalises
the value into a sequence (a non-array scalar becomes a one-element
sequence), filters out exactly the entries whose key already occurs in the
configured or discovered options, appends the rest to the discovered options
in order, and the combined option list keeps configured options before
discovered options. -/
theorem reconcile_functional_spec {σ : Type} (key : σ → String)
    (options no : List σ) (fv : FVal σ)
    (hobj : ∀ e ∈ fv.toElts, ∃ o, e = Elt.obj o) :
    fv.toElts = (objsOf fv).map Elt.obj
    ∧ reconcileStep key options no fv
        = no ++ (objsOf fv).filter (fun o => !(keyMem key (options ++ no) (key o)))
    ∧ allOptions options (reconcileStep key options no fv)
        = options ++ no
            ++ (objsOf fv).filter (fun o => !(keyMem key (options ++ no) (key o)))
    ∧ (∀ o : σ, (FVal.fobj o).toElts = [Elt.obj o]) := by
  have hbatch : reconBatch key options no fv
      = (objsOf fv).filter (fun o => !(keyMem key (options ++ no) (key o))) := by
    rw [reconBatch, objsOf, batch_filter_form]
  have hmain : reconcileStep key options no fv
      = no ++ (objsOf fv).filter (fun o => !(keyMem key (options ++ no) (key o))) := by
    rw [reconcileStep_eq, hbatch]
  refine ⟨?_, hmain, ?_, fun o => rfl⟩
  · rw [objsOf]
    exact all_obj_eq_map fv.toElts hobj
  · rw [allOptions, hmain, List.append_assoc]

/-- Witness for C3 at a concrete instance. -/
theorem reconcile_functional_spec_witness :
    (∀ e ∈ (FVal.farr [Elt.obj "a", Elt.obj "x"]).toElts, ∃ o, e = Elt.obj o)
    ∧ reconcileStep (fun s => s) ["x"] ["d"] (FVal.farr [Elt.obj "a", Elt.obj "x"])
        = ["d", "a"] := by
  have hobj : ∀ e ∈ (FVal.farr [Elt.obj "a", Elt.obj "x"]).toElts,
      ∃ o, e = Elt.obj o := by
    intro e he
    simp only [FVal.toElts] at he
    rcases List.mem_cons.mp he with rfl | he2
    · exact ⟨"a", rfl⟩
    rcases List.mem_cons.mp he2 with rfl | he3
    · exact ⟨"x", rfl⟩
    · exact absurd he3 (List.not_mem_nil e)
  have h := reconcile_functional_spec (fun s : String => s) ["x"] ["d"]
    (FVal.farr [Elt.obj "a", Elt.obj "x"]) hobj
  refine ⟨hobj, ?_⟩
  rw [h.2.1]
  decide

/-- C1 (as stated) is violated: starting from an empty seeding, a single
multi-select array commit whose payload holds two new elements resolving to
the same key inserts both, so the reachable combined option set carries a
duplicate key. -/
theorem optionSet_duplicate_keys_counterexample :
    Reach cDup
      ((commitOnChange cDup (initNewOptions cDup.key cDup.options .fnull) .fnull
        (.varr [.str "a", .str "a"])).newOptionsAfter)
    ∧ ¬ ((allOptions cDup.options
        ((commitOnChange cDup (initNewOptions cDup.key cDup.options .fnull) .fnull
          (.varr [.str "a", .str "a"])).newOptionsAfter)).map cDup.key).Nodup :=
  ⟨Reach.commit FVal.fnull (AcVal.varr [AcElem.str "a", AcElem.str "a"])
    (Reach.init FVal.fnull), by decide⟩

/-- C1 (amended): when the configured options carry pairwise-distinct keys
and every seeding, reconciliation and commit step inserts a batch whose new
elements have pairwise-distinct keys, every reachable combined option set
has pairwise-distinct keys (each insertion admits only keys absent from the
current option set, so only intra-batch duplicates can violate the
invariant). -/
theorem optionSet_nodup_keys_of_distinct_batches {σ : Type} (c : Cfg σ)
    (hopts : (c.options.map c.key).Nodup) {no : List σ} (h : ReachD c no) :
    ((allOptions c.options no).map c.key).Nodup := by
  induction h with
  | init fv hb =>
    exact nodup_append_of_fresh c.key c.options _ hopts hb
      (fun o ho => mem_initNewOptions ho)
  | reconcile fv hprev hb ih =>
    rw [allOptions, reconcileStep_eq, ← List.append_assoc]
    exact nodup_append_of_fresh c.key _ _ ih hb (fun o ho => mem_reconBatch ho)
  | commit fv v hprev hb ih =>
    rw [allOptions, commit_newOptionsAfter, ← List.append_assoc]
    exact nodup_append_of_fresh c.key _ _ ih hb (fun o ho => mem_commitBatch ho)

/-- Witness for the amended C1: a concrete free-solo commit trace whose
batches are duplicate-free keeps the combined option set duplicate-free. -/
theorem optionSet_nodup_keys_witness :
    ((allOptions cW.options
      ((commitOnChange cW (initNewOptions cW.key cW.options .fnull) .fnull
        (.vstr "a")).newOptionsAfter)).map cW.key).Nodup :=
  optionSet_nodup_keys_of_distinct_batches cW (by decide)
    (ReachD.commit FVal.fnull (AcVal.vstr "a")
      (ReachD.init FVal.fnull (by decide)) (by decide))

/-- C4: the claim demands an error at the point of free-text resolution when
free-solo is enabled without a `stringToNewItem` converter, but neither
implementation raises one — the primary pipeline's guard `freeSolo &&
stringToNewItem` fails and the raw string falls through to the default
branch (and passes through as the committed value), and the second
implementation's `throw` is unreachable because `freeSoloItem` is undefined
whenever `stringToNewItem` is. -/
theorem freeSolo_without_converter_no_error :
    commitOnChange cNoConv [] FVal.fnull (AcVal.vstr "Foo")
      = { writes := [], resolved := none, transformCount := 0,
          newOptionsAfter := [], delegated := true }
    ∧ finalCommitted cNoConv [] FVal.fnull (AcVal.vstr "Foo") = AcVal.vstr "Foo"
    ∧ part3OnChange (fun s => s) true none "Foo" ([] : List String) []
        = .ok ([], "Foo") :=
  ⟨rfl, rfl, rfl⟩

theorem commitOnChange_input_eq {σ : Type} (key : σ → String)
    (f : String → σ) (mult : Bool) (tr : Option (AcVal σ → AcVal σ))
    (opts no : List σ) (fv : FVal σ) (value : AcVal σ) (iv : String)
    (hin : getInputValue value = some iv) :
    commitOnChange ⟨key, true, some f, mult, tr, opts⟩ no fv value =
      { writes := [(applyTransform tr (if mult then
            AcVal.varr ((currentArr fv).map Elt.toAc ++ [.obj (f iv)])
          else AcVal.vobj (f iv))).1],
        resolved := some (if mult then
            AcVal.varr ((currentArr fv).map Elt.toAc ++ [.obj (f iv)])
          else AcVal.vobj (f iv)),
        transformCount := (applyTransform tr (if mult then
            AcVal.varr ((currentArr fv).map Elt.toAc ++ [.obj (f iv)])
          else AcVal.vobj (f iv))).2,
        newOptionsAfter := addToNewOptions key opts no (f iv),
        delegated := false } := by
  unfold commitOnChange
  rw [hin]
  rfl

theorem resolveValue_input_eq {σ : Type} (key : σ → String)
    (f : String → σ) (mult : Bool) (tr : Option (AcVal σ → AcVal σ))
    (opts : List σ) (fv : FVal σ) (value : AcVal σ) (iv : String)
    (hin : getInputValue value = some iv) :
    resolveValue ⟨key, true, some f, mult, tr, opts⟩ fv value =
      (if mult then
        AcVal.varr ((currentArr fv).map Elt.toAc ++ [.obj (f iv)])
      else AcVal.vobj (f iv)) := by
  unfold resolveValue
  rw [hin]

/-- C5: whenever a `transformValue` hook exists, a committed non-null value
is `transformValue` applied exactly once to the resolved value immediately
before the write, and clearing a single selection (payload `null`) commits
`null` with the transform not applied. -/
theorem transformValue_applied_once_skipped_on_clear {σ : Type} (c : Cfg σ)
    (t : AcVal σ → AcVal σ) (ht : c.transformValue = some t)
    (no : List σ) (fv : FVal σ) (value : AcVal σ) :
    (value = AcVal.vnull → finalCommitted c no fv value = AcVal.vnull
      ∧ (commitOnChange c no fv value).transformCount = 0)
    ∧ (value.nonNull = true →
        (commitOnChange c no fv value).writes = [t (resolveValue c fv value)]
        ∧ (commitOnChange c no fv value).transformCount = 1
        ∧ finalCommitted c no fv value = t (resolveValue c fv value)) := by
  obtain ⟨key, fs, s2i, mult, tr, opts⟩ := c
  simp only at ht
  subst ht
  constructor
  · rintro rfl
    cases fs with
    | false => exact ⟨rfl, rfl⟩
    | true =>
      cases s2i with
      | none => exact ⟨rfl, rfl⟩
      | some f => exact ⟨rfl, rfl⟩
  · intro hnn
    cases fs with
    | false =>
      cases value with
      | vnull => simp [AcVal.nonNull] at hnn
      | vstr s => exact ⟨rfl, rfl, rfl⟩
      | vobj o => exact ⟨rfl, rfl, rfl⟩
      | vadd a b => exact ⟨rfl, rfl, rfl⟩
      | varr xs => exact ⟨rfl, rfl, rfl⟩
    | true =>
      cases s2i with
      | none =>
        cases value with
        | vnull => simp [AcVal.nonNull] at hnn
        | vstr s => exact ⟨rfl, rfl, rfl⟩
        | vobj o => exact ⟨rfl, rfl, rfl⟩
        | vadd a b => exact ⟨rfl, rfl, rfl⟩
        | varr xs => exact ⟨rfl, rfl, rfl⟩
      | some f =>
        cases value with
        | vnull => simp [AcVal.nonNull] at hnn
        | vobj o => exact ⟨rfl, rfl, rfl⟩
        | vadd a b => cases mult <;> exact ⟨rfl, rfl, rfl⟩
        | varr xs => cases mult <;> exact ⟨rfl, rfl, rfl⟩
        | vstr s =>
          obtain ⟨data⟩ := s
          cases data with
          | nil => exact ⟨rfl, rfl, rfl⟩
          | cons ch chs =>
            have hin : getInputValue (AcVal.vstr (σ := σ) ⟨ch :: chs⟩)
                = some ⟨ch :: chs⟩ := by
              rw [getInputValue, if_pos]
              exact Nat.succ_pos chs.length
            have hco := commitOnChange_input_eq key f mult (some t) opts no fv
              (AcVal.vstr ⟨ch :: chs⟩) ⟨ch :: chs⟩ hin
            have hrv := resolveValue_input_eq key f mult (some t) opts fv
              (AcVal.vstr ⟨ch :: chs⟩) ⟨ch :: chs⟩ hin
            refine ⟨?_, ?_, ?_⟩
            · rw [hco, hrv]
              cases mult <;> rfl
            · rw [hco]
              cases mult <;> rfl
            · unfold finalCommitted
              rw [hco, hrv]
              cases mult <;> rfl

/-- Witness for C5: clearing commits `null` untransformed; a selected item is
committed through the transform. -/
theorem transformValue_applied_once_witness :
    finalCommitted cT [] FVal.fnull AcVal.vnull = AcVal.vnull
    ∧ (commitOnChange cT [] FVal.fnull (AcVal.vobj "a")).writes
        = [AcVal.vstr "T"] := by
  refine ⟨((transformValue_applied_once_skipped_on_clear cT
    (fun _ => AcVal.vstr "T") rfl [] FVal.fnull AcVal.vnull).1 rfl).1, ?_⟩
  have h := ((transformValue_applied_once_skipped_on_clear cT
    (fun _ => AcVal.vstr "T") rfl [] FVal.fnull (AcVal.vobj "a")).2 rfl).1
  rw [h]

/-- C6: a free-solo creation is appended at the end of the existing bound
sequence in multi-select mode (existing elements and order unchanged),
replaces the value in single-select mode, and a multi-select array payload is
resolved element-wise — non-empty strings and sentinels through
`stringToNewItem`, existing items unchanged. -/
theorem freeSolo_commit_resolution {σ : Type} (c : Cfg σ) (f : String → σ)
    (hfs : c.freeSolo = true) (hsi : c.stringToNewItem = some f)
    (no : List σ) (fv : FVal σ) :
    (∀ value iv, getInputValue value = some iv → c.multiple = true →
      (commitOnChange c no fv value).resolved
        = some (.varr ((currentArr fv).map Elt.toAc ++ [.obj (f iv)])))
    ∧ (∀ value iv, getInputValue value = some iv → c.multiple = false →
      (commitOnChange c no fv value).resolved = some (.vobj (f iv)))
    ∧ (∀ xs, c.multiple = true → (∀ s, AcElem.str s ∈ xs → s ≠ "") →
      (commitOnChange c no fv (.varr xs)).resolved
        = some (.varr (xs.map (claimResolveElem f)))) := by
  obtain ⟨key, fs, s2i, mult, tr, opts⟩ := c
  simp only at hfs hsi
  subst hfs
  subst hsi
  refine ⟨?_, ?_, ?_⟩
  · intro value iv hin hm
    simp only at hm
    subst hm
    unfold commitOnChange
    rw [hin]
    rfl
  · intro value iv hin hm
    simp only at hm
    subst hm
    unfold commitOnChange
    rw [hin]
    rfl
  · intro xs hm hne
    simp only at hm
    subst hm
    have hmap : (xs.map fun item =>
        match elemInputValue item with
        | some inputVal => AcElem.obj (f inputVal)
        | none => item) = xs.map (claimResolveElem f) := by
      apply List.map_congr_left
      intro a ha
      cases a with
      | str s =>
        have hs : s.length > 0 := by
          obtain ⟨data⟩ := s
          cases data with
          | nil => exact absurd rfl (hne ⟨[]⟩ ha)
          | cons ch chs => exact Nat.succ_pos chs.length
        simp [elemInputValue, claimResolveElem, hs]
      | obj o => rfl
      | add iv p => rfl
    calc (commitOnChange ⟨key, true, some f, true, tr, opts⟩ no fv (.varr xs)).resolved
        = some (AcVal.varr (xs.map fun item =>
            match elemInputValue item with
            | some inputVal => AcElem.obj (f inputVal)
            | none => item)) := rfl
      _ = some (AcVal.varr (xs.map (claimResolveElem f))) := by rw [hmap]

/-- Witness for C6: committing free text "a" with bound sequence `[x]`
resolves to `[x, a]` — appended at the end. -/
theorem freeSolo_commit_resolution_witness :
    (commitOnChange cDup [] (FVal.farr [Elt.obj "x"]) (AcVal.vstr "a")).resolved
      = some (AcVal.varr [AcElem.obj "x", AcElem.obj "a"]) := by
  have h := (freeSolo_commit_resolution cDup (fun s => s) rfl rfl []
    (FVal.farr [Elt.obj "x"])).1 (AcVal.vstr "a") "a" (by decide) rfl
  rw [h]
  rfl

/-- C7: `renderValue` is total — `null`/absent yields the empty string, a
raw string yields itself, any other single value yields `getItemLabel`, and
an array yields one token per element in order, raw strings labelling
themselves and items labelled by `getItemLabel`. -/
theorem renderValue_total_spec {σ L : Type} (label : σ → L) :
    renderValue label (RVal.rnull (σ := σ)) = Rendered.text ""
    ∧ (∀ s, renderValue label (RVal.rstr s) = Rendered.text s)
    ∧ (∀ o : σ, renderValue label (RVal.robj o) = Rendered.node (label o))
    ∧ (∀ xs : List (Elt σ), renderValue label (RVal.rarr xs)
        = Rendered.chips (xs.map fun e =>
            match e with
            | .str s => RToken.str s
            | .obj o => RToken.lbl (label o))) :=
  ⟨rfl, fun _ => rfl, fun _ => rfl, fun _ => rfl⟩

/-- C8 (as stated) is violated: with `viewOnly` on, a caller-supplied
text-field `variant` does not take precedence — the forced `"standard"`
variant is merged over it. -/
theorem viewOnly_variant_counterexample :
    (getTextElementDisplayProps
      { disabled := none, variant := some Variant.outlined, sxKeys := [] }
      true false).variant = some Variant.standard
    ∧ some Variant.standard ≠ some Variant.outlined :=
  ⟨rfl, by decide⟩

/-- C8 (amended): with `viewOnly` true the adapter forces readOnly, disabled
and clearing-disabled on (caller-supplied explicit values of those
autocomplete fields taking precedence) and forces the style override
unconditionally, while the forced text-field settings (disabled and the
"standard" variant) override the caller's; with `viewOnly` absent the
caller's props pass through unmodified; with `viewOnly` explicitly false the
adapter still writes readOnly/disabled defaults of `false` which the
caller's explicit settings override. -/
theorem viewMode_adapter_amended :
    (∀ acp : AcpAdapterProps, autocompleteAdjustedProps acp (some true)
      = { readOnly := mergeOpt (some true) acp.readOnly,
          disableClearable := mergeOpt (some true) acp.disableClearable,
          disabled := mergeOpt (some true) acp.disabled,
          sxKeys := sxUnion (sxUnion [] acp.sxKeys) [tagOpacityKey] })
    ∧ (∀ (props : TextFieldProps) (d : Bool),
        (getTextElementDisplayProps props true d).disabled = some true
        ∧ (getTextElementDisplayProps props true d).variant
            = some Variant.standard)
    ∧ (∀ acp : AcpAdapterProps, autocompleteAdjustedProps acp none = acp)
    ∧ (∀ (props : TextFieldProps) (d : Bool),
        getTextElementDisplayProps props false d = props)
    ∧ (∀ acp : AcpAdapterProps, autocompleteAdjustedProps acp (some false)
      = { readOnly := mergeOpt (some false) acp.readOnly,
          disableClearable := mergeOpt (some false) acp.disableClearable,
          disabled := mergeOpt (some false) acp.disabled,
          sxKeys := sxUnion [] acp.sxKeys }) := by
  refine ⟨?_, ?_, ?_, ?_, ?_⟩
  · intro acp
    obtain ⟨r, dc, d, sx⟩ := acp
    cases dc <;> rfl
  · intro props d
    exact ⟨rfl, rfl⟩
  · intro acp
    obtain ⟨r, dc, d, sx⟩ := acp
    cases r <;> cases dc <;> cases d <;>
      simp [autocompleteAdjustedProps, mergeOpt, jsOr, sxUnion]
  · intro props d
    rfl
  · intro acp
    obtain ⟨r, dc, d, sx⟩ := acp
    cases dc <;> rfl

/-- C9: the claim requires the validation-error lookup to resolve
dot-separated nested paths, but `useFormError` does a flat bracket lookup
`errors[name]` and misses the nested error its own test expects; the
repository's lodash-`get` variant resolves it. -/
theorem useFormError_flat_misses_nested :
    useFormError nestedErrs "user.email" = (false, "")
    ∧ useFormErrorLodashGet nestedErrs "user.email"
        = (true, "Invalid email format") := by
  constructor
  · rfl
  · rfl

/-- C10: the caller's `autocompleteProps` are spread last into the widget
configuration, so every entry the caller provides wholly replaces the
internal one; in particular a caller-supplied `onChange` replaces the commit
pipeline entirely. -/
theorem caller_autocompleteProps_override {σ : Type} (c : Cfg σ)
    (label : σ → String) (no : List σ) (fv : FVal σ) (acp : CallerAcp σ) :
    (∀ h, acp.onChange = some h →
      (buildWidgetCfg c label no fv acp).onChange = h)
    ∧ (∀ g, acp.filterOptions = some g →
      (buildWidgetCfg c label no fv acp).filterOptions = g)
    ∧ (∀ r, acp.renderValueF = some r →
      (buildWidgetCfg c label no fv acp).renderValueF = r)
    ∧ (∀ q, acp.isOptionEqualToValue = some q →
      (buildWidgetCfg c label no fv acp).isOptionEqualToValue = q)
    ∧ (acp.onChange = none →
      (buildWidgetCfg c label no fv acp).onChange
        = commitOnChange c no fv) := by
  refine ⟨?_, ?_, ?_, ?_, ?_⟩
  · intro h hh
    simp [buildWidgetCfg, hh]
  · intro g hg
    simp [buildWidgetCfg, hg]
  · intro r hr
    simp [buildWidgetCfg, hr]
  · intro q hq
    simp [buildWidgetCfg, hq]
  · intro hn
    simp [buildWidgetCfg, hn]

/-- Witness for C10: a concrete caller-supplied `onChange` is the one that
ends up in the built configuration. -/
theorem caller_autocompleteProps_override_witness :
    (buildWidgetCfg cDup (fun s => s) [] FVal.fnull
      { isOptionEqualToValue := none, filterOptions := none,
        onChange := some (fun _ => ⟨[], none, 0, [], false⟩),
        renderValueF := none, freeSoloOverride := none }).onChange
      = (fun _ => ⟨[], none, 0, [], false⟩) :=
  (caller_autocompleteProps_override cDup (fun s => s) [] FVal.fnull _).1 _ rfl

end RhfMuiKit
